import Mathlib

/-!
Verification of the IAST taint-tracking engine of
`ddtrace/appsec/iast/_taint_tracking/__init__.py`.

The Python module is embedded shallowly.  Values are modelled by `PyObj`:
an identity (what `id(x)` returns) paired with the payload, which is either
text-like content (`str`/`bytes`/`bytearray`, all three behave identically
in this module: a sequence of elements) or some other object.  The taint
registry (`get_taint_dict()` and the native range store, both outside the
analysed file and unified by the specification into one identity-keyed
Registry) is an association list from identity to range sequence; Python
dict assignment overwrites, which the cons-plus-first-match lookup mirrors.
The quota flag `oce.request_has_quota` and the fresh-identity counter used
by the native `new_pyobject_id` live in the same explicit state record.
Fallible Python code (`TypeError` from `len`, `KeyError` from dict
subscription) is modelled with `Option`; `AssertionError` with `Except`.
-/

namespace TaintTracking

/-- `Source(name, value, origin)` : origin descriptor of tainted data.
`origin` stands for the `OriginType` enumeration member, as a number. -/
structure Source where
  name : String
  value : String
  origin : Nat
deriving DecidableEq, Repr

/-- One contiguous tainted region: in the Python module it appears both as a
`TaintRange(start, length, source)` object and as a `(source, start, size)`
tuple stored in the taint dict; both carry exactly these three fields. -/
structure TaintRange where
  start : Nat
  length : Nat
  source : Source
deriving DecidableEq, Repr

/-- Payload of a Python value as far as this module inspects it: text-like
content (`str`/`bytes`/`bytearray`, a sequence of elements) or any other
object, of which only the truthiness is ever observable here. -/
inductive PyData where
  | text (chars : List Char)
  | other (truthy : Bool)
deriving DecidableEq, Repr

/-- A Python value: its identity (`id(x)`) together with its payload. -/
structure PyObj where
  ident : Nat
  data : PyData
deriving DecidableEq, Repr

/-- `len(x)` : defined for text-like values, raises `TypeError` (here:
`none`) otherwise. -/
def pyLen : PyData → Option Nat
  | .text cs => some cs.length
  | .other _ => none

/-- Python truthiness `not x` negated: a text-like value is falsy iff empty;
for other objects the flag is carried by the payload. -/
def pyFalsy : PyData → Bool
  | .text cs => cs.isEmpty
  | .other t => !t

/-- `isinstance(x, (str, bytes, bytearray))`. -/
def isTextLike : PyData → Bool
  | .text _ => true
  | .other _ => false

/-- The character content of a value; text values carry their content, other
values contribute none (they are only ever stored whole, never sliced). -/
def pyDataChars : PyData → List Char
  | .text cs => cs
  | .other _ => []

/-- Python slice `cs[i:j]` for non-negative bounds: out-of-range indices
clamp instead of failing. -/
def pySlice (cs : List Char) (i j : Nat) : List Char :=
  (cs.take j).drop i

/-- The global mutable state the module manipulates: the Registry
(`get_taint_dict()` / the native range store), the counter from which the
native `new_pyobject_id` draws fresh identities, and the quota flag
`oce.request_has_quota`. -/
structure TaintState where
  taint_dict : List (Nat × List TaintRange)
  next_id : Nat
  request_has_quota : Bool
deriving DecidableEq, Repr

/-- `d[k]` on the taint dict: `none` models `KeyError`. -/
def dictGet? (d : List (Nat × List TaintRange)) (k : Nat) : Option (List TaintRange) :=
  match d with
  | [] => none
  | (k', v) :: rest => if k' = k then some v else dictGet? rest k

/-- `d[k] = v`: Python dict assignment; the new binding shadows any old one. -/
def dictSet (st : TaintState) (k : Nat) (v : List TaintRange) : TaintState :=
  { st with taint_dict := (k, v) :: st.taint_dict }

/-- Modelled from the spec: the native Registry lookup `get_ranges` —
"returns the Range sequence for an identity, or an empty sequence if
untainted" (the native range store is not part of the analysed source). -/
def get_ranges (st : TaintState) (pyobject : PyObj) : List TaintRange :=
  (dictGet? st.taint_dict pyobject.ident).getD []

/-- Modelled from the spec: the native `ops.is_tainted`, re-exported as
`is_pyobject_tainted` — "`is_tainted(identity) -> bool`: true iff `lookup`
is non-empty". -/
def is_pyobject_tainted (st : TaintState) (pyobject : PyObj) : Bool :=
  !(get_ranges st pyobject).isEmpty

/-- Modelled from the spec: the native `ops.new_pyobject_id(pyobject, len)` —
"derived values get a fresh identity"; the content is unchanged and a fresh
identity is drawn from the state. -/
def new_pyobject_id (st : TaintState) (pyobject : PyObj) (_len : Nat) :
    PyObj × TaintState :=
  (⟨st.next_id, pyobject.data⟩, { st with next_id := st.next_id + 1 })

/-- Modelled from the spec: the native `set_ranges` — the taint boundary
"registers a single Range covering the whole value" through it, so it
associates the given Range sequence with the value's identity in the
Registry. -/
def set_ranges (st : TaintState) (pyobject : PyObj) (ranges : List TaintRange) :
    TaintState :=
  dictSet st pyobject.ident ranges

/-- `add_taint_pyobject(pyobject, op1, op2)` : propagation step for
`pyobject = op1 + op2`.  If neither operand is tainted the result is
returned as-is; otherwise the result is rebound to a fresh identity and the
concatenation of `op1`'s ranges with `op2`'s ranges shifted by `len(op1)`
is registered for it.  `none` models an uncaught `TypeError`/`KeyError`. -/
def add_taint_pyobject (st : TaintState) (pyobject op1 op2 : PyObj) :
    Option (PyObj × TaintState) :=
  if !(is_pyobject_tainted st op1 || is_pyobject_tainted st op2) then
    some (pyobject, st)
  else
    match pyLen pyobject.data with
    | none => none
    | some lenPy =>
      let freshRes := new_pyobject_id st pyobject lenPy
      let pyobject2 := freshRes.1
      let st2 := freshRes.2
      match (if is_pyobject_tainted st2 op1 then dictGet? st2.taint_dict op1.ident
             else some []) with
      | none => none
      | some new_ranges =>
        if is_pyobject_tainted st2 op2 then
          match pyLen op1.data, dictGet? st2.taint_dict op2.ident with
          | some offset, some rs2 =>
            some (pyobject2,
              dictSet st2 pyobject2.ident
                (new_ranges ++ rs2.map (fun r => ⟨r.start + offset, r.length, r.source⟩)))
          | _, _ => none
        else
          some (pyobject2, dictSet st2 pyobject2.ident new_ranges)

/-- `taint_pyobject(pyobject, source=None)` : marks a whole value as tainted.
No-op whenever quota is exhausted, the value is falsy or not text-like, or
the source is absent; otherwise registers `[TaintRange(0, len(pyobject),
source)]` via the native `set_ranges` and returns the value. -/
def taint_pyobject (st : TaintState) (pyobject : PyObj) (source : Option Source) :
    PyObj × TaintState :=
  if !st.request_has_quota then
    (pyobject, st)
  else if pyFalsy pyobject.data || !isTextLike pyobject.data then
    (pyobject, st)
  else
    match source with
    | none => (pyobject, st)
    | some s =>
      (pyobject, set_ranges st pyobject [⟨0, (pyDataChars pyobject.data).length, s⟩])

/-- `pyobject in taint_dict` : Python `in` on a dict compares the candidate
against the keys.  The keys are `id(...)` integers while the values passed
here are text-like or other non-integer objects, so the comparison never
succeeds. -/
def pyObjInDict (_pyobject : PyObj) (_d : List (Nat × List TaintRange)) : Bool :=
  false

/-- `set_tainted_ranges(pyobject, ranges)` : asserts
`pyobject not in taint_dict` and then stores `ranges` under
`id(pyobject)`.  `Except.error` models `AssertionError`. -/
def set_tainted_ranges (st : TaintState) (pyobject : PyObj)
    (ranges : List TaintRange) : Except String TaintState :=
  if pyObjInDict pyobject st.taint_dict then
    .error "AssertionError"
  else
    .ok (dictSet st pyobject.ident ranges)

/-- `get_tainted_ranges(pyobject)` : delegates to the native `get_ranges`. -/
def get_tainted_ranges (st : TaintState) (pyobject : PyObj) : List TaintRange :=
  get_ranges st pyobject

/-- One element of the `value_parts` list built by
`taint_ranges_as_evidence_info`: the dict `{"value": ...}` for an untainted
segment or `{"value": ..., "source": i}` for a tainted one. -/
structure ValuePart where
  value : List Char
  source : Option Nat
deriving DecidableEq, Repr

/-- `sources.index(s)` for a member `s` (first position of `s`). -/
def listIndex (xs : List Source) (a : Source) : Nat :=
  match xs with
  | [] => 0
  | x :: rest => if x = a then 0 else listIndex rest a + 1

/-- The `for _range in tainted_ranges` loop of
`taint_ranges_as_evidence_info`, with the mutable `current_pos`,
`value_parts` and `sources` threaded explicitly, followed by the trailing
`if current_pos < len(pyobject)` segment. -/
def evidenceLoop (cs : List Char) :
    List TaintRange → Nat → List ValuePart → List Source →
    List ValuePart × List Source
  | [], current_pos, value_parts, sources =>
    (if current_pos < cs.length then
      value_parts ++ [⟨pySlice cs current_pos cs.length, none⟩]
     else value_parts, sources)
  | r :: rest, current_pos, value_parts, sources =>
    let value_parts :=
      if current_pos < r.start then
        value_parts ++ [⟨pySlice cs current_pos r.start, none⟩]
      else value_parts
    let sources := if r.source ∈ sources then sources else sources ++ [r.source]
    let value_parts :=
      value_parts ++
        [⟨pySlice cs r.start (r.start + r.length), some (listIndex sources r.source)⟩]
    evidenceLoop cs rest (r.start + r.length) value_parts sources

/-- `taint_ranges_as_evidence_info(pyobject)` : decomposes a value into
untainted and tainted segments with a de-duplicated source list.  With no
registered ranges, the single untainted segment holds the whole value (for
text values, its character content). -/
def taint_ranges_as_evidence_info (st : TaintState) (pyobject : PyObj) :
    List ValuePart × List Source :=
  let tainted_ranges := get_tainted_ranges st pyobject
  if tainted_ranges.length = 0 then
    ([⟨pyDataChars pyobject.data, none⟩], [])
  else
    evidenceLoop (pyDataChars pyobject.data) tainted_ranges 0 [] []

/-! ### Spec-side definitions

These restate, in the specification's words, what the claims assert about
the code; the theorems below relate them to the embedded functions. -/

/-- The spec's `shift(r, off)`: `new_start = old_start + off`, length and
source unchanged. -/
def shiftRange (off : Nat) (r : TaintRange) : TaintRange :=
  ⟨r.start + off, r.length, r.source⟩

/-- The spec's ordering invariant, relative to a left bound `pos`: every
range starts at or after `pos`, ranges are disjoint and sorted by start
ascending, and each range lies within `[0, len)`.  `chainFrom len 0 rs` is
the invariant as the claims state it. -/
def chainFrom (len : Nat) : Nat → List TaintRange → Bool
  | _, [] => true
  | pos, r :: rest =>
    decide (pos ≤ r.start) && decide (r.start + r.length ≤ len) &&
      chainFrom len (r.start + r.length) rest

/-- First-occurrence-order de-duplication of the sources of a range list,
starting from an already-collected accumulator; with `acc = []` this is the
spec's "Sources are de-duplicated ... into an ordered list". -/
def dedupSources (acc : List Source) : List TaintRange → List Source
  | [] => acc
  | r :: rest =>
    dedupSources (if r.source ∈ acc then acc else acc ++ [r.source]) rest

/-- The evidence decomposition as the spec words it: walking left to right
from `pos`, an untainted segment for each gap before a range's start, a
tainted segment per range whose index points into the fixed final
de-duplicated source list `srcs`, and a trailing untainted segment if the
last range does not reach the end. -/
def specSegments (cs : List Char) (srcs : List Source) :
    Nat → List TaintRange → List ValuePart
  | pos, [] =>
    if pos < cs.length then [⟨pySlice cs pos cs.length, none⟩] else []
  | pos, r :: rest =>
    (if pos < r.start then [⟨pySlice cs pos r.start, none⟩] else []) ++
      ⟨pySlice cs r.start (r.start + r.length), some (listIndex srcs r.source)⟩ ::
        specSegments cs srcs (r.start + r.length) rest

/-- Concatenation of the `value` fields of a segment list, for the evidence
round-trip property. -/
def joinValues (parts : List ValuePart) : List Char :=
  (parts.map ValuePart.value).flatten

/-! ### Helper lemmas -/

theorem listIndex_append_of_mem {xs : List Source} {a : Source} (ys : List Source)
    (h : a ∈ xs) : listIndex (xs ++ ys) a = listIndex xs a := by
  induction xs with
  | nil => cases h
  | cons x rest ih =>
    by_cases hx : x = a
    · simp [listIndex, hx]
    · rcases List.mem_cons.mp h with h | h
      · exact absurd h.symm hx
      · simp [listIndex, hx, ih h]

theorem get?_listIndex {xs : List Source} {a : Source} (h : a ∈ xs) :
    xs[listIndex xs a]? = some a := by
  induction xs with
  | nil => cases h
  | cons x rest ih =>
    by_cases hx : x = a
    · simp [listIndex, hx]
    · rcases List.mem_cons.mp h with h | h
      · exact absurd h.symm hx
      · simp [listIndex, hx, ih h]

theorem dedupSources_extends (acc : List Source) (rs : List TaintRange) :
    ∃ extra, dedupSources acc rs = acc ++ extra := by
  induction rs generalizing acc with
  | nil => exact ⟨[], by simp [dedupSources]⟩
  | cons r rest ih =>
    by_cases hm : r.source ∈ acc
    · rcases ih acc with ⟨extra, hx⟩
      refine ⟨extra, ?_⟩
      simp only [dedupSources, if_pos hm]
      exact hx
    · rcases ih (acc ++ [r.source]) with ⟨extra, hx⟩
      exact ⟨[r.source] ++ extra, by simp [dedupSources, hm, hx]⟩

theorem mem_dedupSources_of_mem {acc : List Source} {rs : List TaintRange}
    {r : TaintRange} (h : r ∈ rs) : r.source ∈ dedupSources acc rs := by
  induction rs generalizing acc with
  | nil => cases h
  | cons x rest ih =>
    rcases List.mem_cons.mp h with h | h
    · by_cases hm : x.source ∈ acc
      · rcases dedupSources_extends acc rest with ⟨extra, hx⟩
        subst h
        simp [dedupSources, hm, hx]
      · rcases dedupSources_extends (acc ++ [x.source]) rest with ⟨extra, hx⟩
        subst h
        simp [dedupSources, hm, hx]
    · simp only [dedupSources]
      exact ih h

/-- The source loop of `taint_ranges_as_evidence_info` computes exactly the
spec-side decomposition: segments are appended to the accumulated list, and
each tainted segment's index into the sources-so-far agrees with its index
into the final de-duplicated list. -/
theorem evidenceLoop_eq_spec (cs : List Char) (rs : List TaintRange)
    (pos : Nat) (parts : List ValuePart) (acc : List Source) :
    evidenceLoop cs rs pos parts acc =
      (parts ++ specSegments cs (dedupSources acc rs) pos rs, dedupSources acc rs) := by
  induction rs generalizing pos parts acc with
  | nil => simp [evidenceLoop, specSegments, dedupSources]; split <;> simp
  | cons r rest ih =>
    have hacc : r.source ∈ (if r.source ∈ acc then acc else acc ++ [r.source]) := by
      split <;> simp_all
    rcases dedupSources_extends (if r.source ∈ acc then acc else acc ++ [r.source])
        rest with ⟨extra, hx⟩
    have hidx : listIndex (dedupSources acc (r :: rest)) r.source =
        listIndex (if r.source ∈ acc then acc else acc ++ [r.source]) r.source := by
      simp only [dedupSources, hx]
      exact listIndex_append_of_mem extra hacc
    simp only [evidenceLoop, ih, dedupSources, specSegments]
    rw [← dedupSources, hidx]
    split <;> simp

theorem pySlice_append {i j k : Nat} (cs : List Char) (hij : i ≤ j) (hjk : j ≤ k) :
    pySlice cs i j ++ pySlice cs j k = pySlice cs i k := by
  unfold pySlice
  rw [List.drop_take j i cs, List.drop_take k j cs, List.drop_take k i cs]
  have hj : j = (j - i) + i := by omega
  have hdrop : cs.drop j = (cs.drop i).drop (j - i) := by
    rw [List.drop_drop]; congr 1; omega
  rw [hdrop]
  have hk : k - i = (j - i) + (k - j) := by omega
  rw [hk, List.take_add]

theorem pySlice_to_length (cs : List Char) (i : Nat) :
    pySlice cs i cs.length = cs.drop i := by
  simp [pySlice]

theorem pySlice_self (cs : List Char) (i : Nat) : pySlice cs i i = [] := by
  apply List.drop_eq_nil_of_le
  simp

theorem joinValues_cons (x : ValuePart) (xs : List ValuePart) :
    joinValues (x :: xs) = x.value ++ joinValues xs := by
  simp [joinValues]

/-- Round-trip of the spec-side decomposition: under the ordering invariant,
the segment values concatenate to the suffix of the value from `pos` on. -/
theorem joinValues_specSegments (cs : List Char) (srcs : List Source)
    (rs : List TaintRange) (pos : Nat) (h : chainFrom cs.length pos rs = true) :
    joinValues (specSegments cs srcs pos rs) = cs.drop pos := by
  induction rs generalizing pos with
  | nil =>
    by_cases hp : pos < cs.length
    · simp [specSegments, joinValues, hp, pySlice_to_length]
    · simp only [specSegments, hp, if_neg, not_false_iff, joinValues, List.map_nil,
        List.flatten_nil]
      rw [eq_comm, List.drop_eq_nil_of_le]
      omega
  | cons r rest ih =>
    simp only [chainFrom, Bool.and_eq_true, decide_eq_true_eq] at h
    obtain ⟨⟨h1, h2⟩, h3⟩ := h
    by_cases hp : pos < r.start
    · rw [specSegments, if_pos hp, List.singleton_append, joinValues_cons, joinValues_cons,
        ih _ h3, ← pySlice_to_length cs (r.start + r.length),
        pySlice_append cs (Nat.le_add_right r.start r.length) h2,
        pySlice_append cs (Nat.le_of_lt hp) (le_trans (Nat.le_add_right r.start r.length) h2),
        pySlice_to_length]
    · have hpos : pos = r.start := by omega
      rw [specSegments, if_neg hp, List.nil_append, joinValues_cons, ih _ h3,
        ← pySlice_to_length cs (r.start + r.length),
        pySlice_append cs (Nat.le_add_right r.start r.length) h2, hpos,
        pySlice_to_length]

/-- The ordering invariant is antitone in the left bound. -/
theorem chainFrom_mono_pos {len p q : Nat} {rs : List TaintRange} (hpq : p ≤ q)
    (h : chainFrom len q rs = true) : chainFrom len p rs = true := by
  cases rs with
  | nil => simp [chainFrom]
  | cons r rest =>
    simp only [chainFrom, Bool.and_eq_true, decide_eq_true_eq] at h ⊢
    exact ⟨⟨by omega, h.1.2⟩, h.2⟩

/-- Shifting a chain by `off` shifts the invariant's bounds by `off`. -/
theorem chainFrom_shift {len q : Nat} (off : Nat) {rs : List TaintRange}
    (h : chainFrom len q rs = true) :
    chainFrom (off + len) (off + q) (rs.map (shiftRange off)) = true := by
  induction rs generalizing q with
  | nil => simp [chainFrom]
  | cons r rest ih =>
    simp only [chainFrom, Bool.and_eq_true, decide_eq_true_eq] at h
    simp only [List.map_cons, chainFrom, shiftRange, Bool.and_eq_true, decide_eq_true_eq]
    refine ⟨⟨by omega, by omega⟩, ?_⟩
    have := ih h.2
    have harr : r.start + off + r.length = off + (r.start + r.length) := by omega
    rw [harr]
    exact this

/-- Appending a chain that lives above `len1` to a chain bounded by `len1`
preserves the invariant under the larger bound. -/
theorem chainFrom_append {len1 len2 pos : Nat} {xs ys : List TaintRange}
    (hle : len1 ≤ len2) (hpos : pos ≤ len1)
    (hxs : chainFrom len1 pos xs = true) (hys : chainFrom len2 len1 ys = true) :
    chainFrom len2 pos (xs ++ ys) = true := by
  induction xs generalizing pos with
  | nil => exact chainFrom_mono_pos hpos hys
  | cons x rest ih =>
    simp only [chainFrom, Bool.and_eq_true, decide_eq_true_eq] at hxs
    simp only [List.cons_append, chainFrom, Bool.and_eq_true, decide_eq_true_eq]
    exact ⟨⟨hxs.1.1, by omega⟩, ih hxs.1.2 hxs.2⟩

theorem get_ranges_dictSet (st : TaintState) (k : Nat) (v : List TaintRange)
    (p : PyObj) (h : p.ident = k) : get_ranges (dictSet st k v) p = v := by
  simp [get_ranges, dictSet, dictGet?, h]

/-! ### Concrete fixtures used by witnesses and counterexamples -/

/-- A parameter-origin source used by concrete instances. -/
def src1 : Source := ⟨"k1", "v1", 0⟩

/-- A second, distinct source used by concrete instances. -/
def src2 : Source := ⟨"k2", "v2", 1⟩

/-- The value `"ab"`, registered under identity 1 in `stAB`. -/
def objA : PyObj := ⟨1, .text ['a', 'b']⟩

/-- The value `"c"`, registered under identity 2 in `stAB`. -/
def objB : PyObj := ⟨2, .text ['c']⟩

/-- The concatenation value `"abc"`, as produced by the underlying `+`. -/
def objAB : PyObj := ⟨3, .text ['a', 'b', 'c']⟩

/-- A state in which `objA` and `objB` are each tainted over their whole
extent and quota is available. -/
def stAB : TaintState :=
  ⟨[(1, [⟨0, 2, src1⟩]), (2, [⟨0, 1, src2⟩])], 10, true⟩

/-! ### Claims -/

/-- Evaluation of `add_taint_pyobject` when at least one operand is tainted:
the call succeeds and registers, under the result's fresh identity, `op1`'s
ranges followed by `op2`'s ranges shifted by `len(op1)`; an untainted
operand has the empty range list and contributes nothing. -/
theorem add_ranges_spec (st : TaintState) (res a b : PyObj)
    (ca cr : List Char) (hca : a.data = .text ca) (hcr : res.data = .text cr)
    (ht : is_pyobject_tainted st a = true ∨ is_pyobject_tainted st b = true) :
    add_taint_pyobject st res a b =
      some (⟨st.next_id, res.data⟩,
        dictSet { st with next_id := st.next_id + 1 } st.next_id
          (get_ranges st a ++ (get_ranges st b).map (shiftRange ca.length))) := by
  cases hA : is_pyobject_tainted st a with
  | true =>
    rcases hd : dictGet? st.taint_dict a.ident with _ | la
    · rw [is_pyobject_tainted, get_ranges, hd] at hA
      simp at hA
    have hla : la.isEmpty = false := by
      rw [is_pyobject_tainted, get_ranges, hd] at hA
      simpa using hA
    cases hB : is_pyobject_tainted st b with
    | true =>
      rcases he : dictGet? st.taint_dict b.ident with _ | lb
      · rw [is_pyobject_tainted, get_ranges, he] at hB
        simp at hB
      have hlb : lb.isEmpty = false := by
        rw [is_pyobject_tainted, get_ranges, he] at hB
        simpa using hB
      simp only [add_taint_pyobject, is_pyobject_tainted, get_ranges, hd, he, hla, hlb,
        pyLen, hcr, hca, new_pyobject_id, Option.getD_some, Bool.not_eq_true',
        Bool.or_eq_true, Bool.not_eq_false]
      split
      · simp_all
      · rfl
    | false =>
      have hgb : (get_ranges st b).isEmpty = true := by
        rw [is_pyobject_tainted] at hB
        simpa using hB
      rw [List.isEmpty_iff] at hgb
      simp only [add_taint_pyobject, is_pyobject_tainted, get_ranges, hd, hla, hgb,
        pyLen, hcr, new_pyobject_id, Option.getD_some, Bool.not_eq_true',
        Bool.or_eq_true, Bool.not_eq_false]
      rw [get_ranges] at hgb
      split
      · simp_all
      · simp_all [get_ranges, hgb]
  | false =>
    cases hB : is_pyobject_tainted st b with
    | false =>
      rw [hA, hB] at ht
      simp at ht
    | true =>
      have hga : (get_ranges st a).isEmpty = true := by
        rw [is_pyobject_tainted] at hA
        simpa using hA
      rw [List.isEmpty_iff] at hga
      rcases he : dictGet? st.taint_dict b.ident with _ | lb
      · rw [is_pyobject_tainted, get_ranges, he] at hB
        simp at hB
      have hlb : lb.isEmpty = false := by
        rw [is_pyobject_tainted, get_ranges, he] at hB
        simpa using hB
      have hga' : (dictGet? st.taint_dict a.ident).getD [] = [] := by
        rw [get_ranges] at hga
        exact hga
      simp only [add_taint_pyobject, is_pyobject_tainted, get_ranges, he, hga', hlb,
        pyLen, hcr, hca, new_pyobject_id, Option.getD_some, Bool.not_eq_true',
        Bool.or_eq_true, Bool.not_eq_false]
      split
      · simp_all
      · simp_all [hga]
        rfl

/-- Claim C1: for tainted operands `a` and `b`, the range sequence that
`add_taint_pyobject` registers for the concatenation result is `a`'s ranges
copied unchanged followed by `b`'s ranges each shifted by `len(a)`, with
lengths and sources unchanged. -/
theorem add_taint_pyobject_concat_ranges (st : TaintState) (res a b : PyObj)
    (ca cr : List Char) (hca : a.data = .text ca) (hcr : res.data = .text cr)
    (hta : is_pyobject_tainted st a = true) (_htb : is_pyobject_tainted st b = true) :
    (add_taint_pyobject st res a b).map (fun p => get_ranges p.2 p.1) =
      some (get_ranges st a ++ (get_ranges st b).map (shiftRange ca.length)) := by
  rw [add_ranges_spec st res a b ca cr hca hcr (Or.inl hta)]
  simp [get_ranges_dictSet]

/-- Witness for C1: concatenating tainted `"ab"` and tainted `"c"` registers
`src1`'s range unchanged followed by `src2`'s range shifted by 2. -/
theorem add_taint_pyobject_concat_ranges_witness :
    (add_taint_pyobject stAB objAB objA objB).map (fun p => get_ranges p.2 p.1) =
      some (get_ranges stAB objA ++ (get_ranges stAB objB).map (shiftRange 2)) :=
  add_taint_pyobject_concat_ranges stAB objAB objA objB ['a', 'b'] ['a', 'b', 'c']
    rfl rfl (by decide) (by decide)

/-- The value `"z"`, with an identity absent from `stAB` and `stNoQ`. -/
def objC : PyObj := ⟨4, .text ['z']⟩

/-- `stAB` with the quota flag exhausted. -/
def stNoQ : TaintState :=
  ⟨[(1, [⟨0, 2, src1⟩]), (2, [⟨0, 1, src2⟩])], 10, false⟩

/-- An empty registry with quota available. -/
def stEmpty : TaintState := ⟨[], 0, true⟩

/-- Claim C7: when neither operand is tainted, `add_taint_pyobject` returns
the underlying operation's result as-is without touching the registry, and
the result (whose identity is fresh, hence unregistered) is not tainted. -/
theorem add_taint_pyobject_untainted_noop (st : TaintState) (res a b : PyObj)
    (hta : is_pyobject_tainted st a = false) (htb : is_pyobject_tainted st b = false)
    (hfresh : dictGet? st.taint_dict res.ident = none) :
    add_taint_pyobject st res a b = some (res, st) ∧
      is_pyobject_tainted st res = false := by
  constructor
  · simp [add_taint_pyobject, hta, htb]
  · simp [is_pyobject_tainted, get_ranges, hfresh]

/-- Witness for C7: with an empty registry, concatenation propagation leaves
the state alone and the result untainted. -/
theorem add_taint_pyobject_untainted_noop_witness :
    add_taint_pyobject stEmpty objAB objA objB = some (objAB, stEmpty) ∧
      is_pyobject_tainted stEmpty objAB = false :=
  add_taint_pyobject_untainted_noop stEmpty objAB objA objB (by decide) (by decide)
    (by decide)

/-- Counterexample to claim C2: the quota gate is not consulted by
`add_taint_pyobject` — on a quota-exhausted state it still updates the
registry, registering a non-empty range sequence for the result. -/
theorem add_taint_pyobject_ignores_quota_cex :
    stNoQ.request_has_quota = false ∧
      (add_taint_pyobject stNoQ objAB objA objB).map (fun p => get_ranges p.2 p.1) =
        some [⟨0, 2, src1⟩, ⟨2, 1, src2⟩] := by
  decide

/-- Claim C2 (amended): only `taint_pyobject` consults the quota gate — with
quota exhausted it returns its argument unchanged without consulting or
updating the registry — while `add_taint_pyobject` propagates and registers
regardless of the exhausted quota. -/
theorem quota_gate_taint_only (st : TaintState) (p res a b : PyObj)
    (src : Option Source) (ca cr : List Char)
    (hq : st.request_has_quota = false)
    (hca : a.data = .text ca) (hcr : res.data = .text cr)
    (hta : is_pyobject_tainted st a = true) :
    taint_pyobject st p src = (p, st) ∧
      (add_taint_pyobject st res a b).map (fun q => get_ranges q.2 q.1) =
        some (get_ranges st a ++ (get_ranges st b).map (shiftRange ca.length)) := by
  refine ⟨by simp [taint_pyobject, hq], ?_⟩
  rw [add_ranges_spec st res a b ca cr hca hcr (Or.inl hta)]
  simp [get_ranges_dictSet]

/-- Witness for C2 (amended): on `stNoQ` (quota exhausted), tainting is a
no-op while concatenation propagation still registers the shifted ranges. -/
theorem quota_gate_taint_only_witness :
    taint_pyobject stNoQ objC (some src1) = (objC, stNoQ) ∧
      (add_taint_pyobject stNoQ objAB objA objB).map (fun q => get_ranges q.2 q.1) =
        some (get_ranges stNoQ objA ++ (get_ranges stNoQ objB).map (shiftRange 2)) :=
  quota_gate_taint_only stNoQ objC objAB objA objB (some src1) ['a', 'b']
    ['a', 'b', 'c'] rfl rfl rfl (by decide)

/-- The state after `set_tainted_ranges` silently overwrites `objA`'s entry. -/
def stOver : TaintState := ⟨(1, [⟨0, 1, src2⟩]) :: stAB.taint_dict, 10, true⟩

/-- Claim C3 (code bug): registering ranges for an identity that already has
an entry does not raise.  The `assert pyobject not in taint_dict` tests the
object itself against the dict's integer `id(...)` keys, which never match a
text value, so the assertion passes and the existing entry is silently
overwritten. -/
theorem set_tainted_ranges_overwrites :
    is_pyobject_tainted stAB objA = true ∧
      set_tainted_ranges stAB objA [⟨0, 1, src2⟩] = Except.ok stOver ∧
      get_ranges stOver objA = [⟨0, 1, src2⟩] :=
  ⟨by decide, rfl, by decide⟩

/-- Counterexample to claim C8: a non-empty text value with a present source
is NOT registered when quota is exhausted — `taint_pyobject` is a no-op on a
path the claim's "otherwise it registers" does not allow for. -/
theorem taint_pyobject_quota_noop_cex :
    stNoQ.request_has_quota = false ∧
      objAB.data = PyData.text ['a', 'b', 'c'] ∧
      taint_pyobject stNoQ objAB (some src1) = (objAB, stNoQ) ∧
      get_ranges stNoQ objAB = [] := by
  decide

/-- Claim C8 (amended): `taint_pyobject` silently returns its input
unchanged whenever the source is absent, the value is empty (falsy), the
value is not text-like, or — the amendment — quota is exhausted; otherwise
it registers the single range `[0, len(value))` with the given source and
returns the value. -/
theorem taint_pyobject_cases (st : TaintState) (p : PyObj) (src : Option Source) :
    ((st.request_has_quota = false ∨ pyFalsy p.data = true ∨
        isTextLike p.data = false ∨ src = none) →
      taint_pyobject st p src = (p, st)) ∧
    (∀ cs s, st.request_has_quota = true → p.data = .text cs → cs ≠ [] →
      src = some s →
      taint_pyobject st p src = (p, set_ranges st p [⟨0, cs.length, s⟩]) ∧
        get_ranges (taint_pyobject st p src).2 p = [⟨0, cs.length, s⟩]) := by
  constructor
  · intro h
    unfold taint_pyobject
    rcases h with h | h | h | h
    · simp [h]
    · by_cases hq : st.request_has_quota
      · simp [hq, h]
      · simp [hq]
    · by_cases hq : st.request_has_quota
      · simp [hq, h]
      · simp [hq]
    · subst h
      by_cases hq : st.request_has_quota
      · by_cases hv : pyFalsy p.data || !isTextLike p.data
        · simp [hq, hv]
        · simp [hq, hv]
      · simp [hq]
  · intro cs s hq hp hne hsrc
    subst hsrc
    have hfal : pyFalsy (PyData.text cs) = false := by
      simp [pyFalsy, List.isEmpty_iff, hne]
    have htxt : isTextLike (PyData.text cs) = true := by
      simp [isTextLike]
    have hstep : taint_pyobject st p (some s) =
        (p, set_ranges st p [⟨0, cs.length, s⟩]) := by
      unfold taint_pyobject
      simp [hq, hfal, htxt, pyDataChars, hp]
    refine ⟨hstep, ?_⟩
    rw [hstep]
    exact get_ranges_dictSet _ _ _ _ rfl

/-- Witness for C8 (amended): tainting untracked `"z"` with `src1` under
available quota registers `[0, 1)`; with a present source but exhausted
quota the input comes back unchanged. -/
theorem taint_pyobject_cases_witness :
    taint_pyobject stNoQ objAB (some src1) = (objAB, stNoQ) ∧
      taint_pyobject stAB objC (some src1) =
        (objC, set_ranges stAB objC [⟨0, 1, src1⟩]) :=
  ⟨(taint_pyobject_cases stNoQ objAB (some src1)).1 (Or.inl rfl),
   ((taint_pyobject_cases stAB objC (some src1)).2 ['z'] src1 rfl rfl
      (by decide) rfl).1⟩

/-- Claim C9: `taint_pyobject` returns the very object it was passed on
every path, and any registry entry it creates is keyed by that original
object's identity — the value is never rebound to a fresh identity before
registration. -/
theorem taint_pyobject_preserves_identity (st : TaintState) (p : PyObj)
    (src : Option Source) :
    (taint_pyobject st p src).1 = p ∧
      ((taint_pyobject st p src).2.taint_dict = st.taint_dict ∨
        ∃ rs, (taint_pyobject st p src).2.taint_dict = (p.ident, rs) :: st.taint_dict) := by
  unfold taint_pyobject
  split
  · exact ⟨rfl, Or.inl rfl⟩
  · split
    · exact ⟨rfl, Or.inl rfl⟩
    · match src with
      | none => exact ⟨rfl, Or.inl rfl⟩
      | some s => exact ⟨rfl, Or.inr ⟨_, rfl⟩⟩

theorem dedupSources_nodup {acc : List Source} (rs : List TaintRange)
    (h : acc.Nodup) : (dedupSources acc rs).Nodup := by
  induction rs generalizing acc with
  | nil => simpa [dedupSources] using h
  | cons r rest ih =>
    by_cases hm : r.source ∈ acc
    · simp only [dedupSources, if_pos hm]
      exact ih h
    · simp only [dedupSources, if_neg hm]
      apply ih
      simp [List.nodup_append, h, hm]

/-- With a non-empty registered range list, the evidence function computes
the spec-side decomposition over the final de-duplicated source list. -/
theorem evidence_eq_spec (st : TaintState) (p : PyObj) (cs : List Char)
    (hp : p.data = .text cs) (hne : get_tainted_ranges st p ≠ []) :
    taint_ranges_as_evidence_info st p =
      (specSegments cs (dedupSources [] (get_tainted_ranges st p)) 0
         (get_tainted_ranges st p),
       dedupSources [] (get_tainted_ranges st p)) := by
  have hlen : ¬ (get_tainted_ranges st p).length = 0 := by
    simpa [List.length_eq_zero] using hne
  unfold taint_ranges_as_evidence_info
  rw [if_neg hlen, hp]
  exact evidenceLoop_eq_spec cs (get_tainted_ranges st p) 0 [] []

theorem mem_specSegments (cs : List Char) (srcs : List Source)
    {rs : List TaintRange} {r : TaintRange} (pos : Nat) (h : r ∈ rs) :
    (⟨pySlice cs r.start (r.start + r.length),
       some (listIndex srcs r.source)⟩ : ValuePart) ∈ specSegments cs srcs pos rs := by
  induction rs generalizing pos with
  | nil => cases h
  | cons x rest ih =>
    rcases List.mem_cons.mp h with h | h
    · subst h
      simp [specSegments]
    · simp only [specSegments]
      refine List.mem_append_right _ ?_
      exact List.mem_cons_of_mem _ (ih _ h)

/-- The value `"helloworld"`, carrying three ranges (two of them sharing
`src1`) in `stEv`, with gaps at `[0,1)` and `[3,4)` and a tail `[7,10)`. -/
def objEv : PyObj := ⟨5, .text ['h', 'e', 'l', 'l', 'o', 'w', 'o', 'r', 'l', 'd']⟩

/-- State registering `objEv`'s ranges `[1,3)↦src1`, `[4,5)↦src2`,
`[5,7)↦src1`. -/
def stEv : TaintState :=
  ⟨[(5, [⟨1, 2, src1⟩, ⟨4, 1, src2⟩, ⟨5, 2, src1⟩])], 20, true⟩

/-- The value `"xy"` carrying one zero-length range in `stZ`. -/
def objZ : PyObj := ⟨6, .text ['x', 'y']⟩

/-- State registering the zero-length range `[1,1)↦src1` for `objZ`. -/
def stZ : TaintState := ⟨[(6, [⟨1, 0, src1⟩])], 20, true⟩

/-- Claim C4: for a value whose ranges are sorted by start, disjoint and in
bounds, the evidence decomposition emits, left to right, an untainted
segment per gap, a tainted segment per range carrying the index of its
source in the first-occurrence de-duplicated source list, and a trailing
untainted segment when the last range falls short of the end; with no
ranges, a single whole-value untainted segment and no sources.  The emitted
source list holds each distinct source exactly once. -/
theorem taint_ranges_as_evidence_info_spec (st : TaintState) (p : PyObj)
    (cs : List Char) (hp : p.data = .text cs)
    (_hch : chainFrom cs.length 0 (get_tainted_ranges st p) = true) :
    (taint_ranges_as_evidence_info st p =
      if get_tainted_ranges st p = [] then ([⟨cs, none⟩], [])
      else
        (specSegments cs (dedupSources [] (get_tainted_ranges st p)) 0
           (get_tainted_ranges st p),
         dedupSources [] (get_tainted_ranges st p))) ∧
      (taint_ranges_as_evidence_info st p).2.Nodup := by
  by_cases hrs : get_tainted_ranges st p = []
  · rw [if_pos hrs]
    unfold taint_ranges_as_evidence_info
    rw [hrs]
    simp [hp, pyDataChars]
  · rw [if_neg hrs, evidence_eq_spec st p cs hp hrs]
    exact ⟨rfl, dedupSources_nodup _ List.nodup_nil⟩

/-- Witness for C4 at `"helloworld"` with three in-bounds sorted ranges. -/
theorem taint_ranges_as_evidence_info_spec_witness :
    (taint_ranges_as_evidence_info stEv objEv =
      if get_tainted_ranges stEv objEv = [] then
        ([⟨['h', 'e', 'l', 'l', 'o', 'w', 'o', 'r', 'l', 'd'], none⟩], [])
      else
        (specSegments ['h', 'e', 'l', 'l', 'o', 'w', 'o', 'r', 'l', 'd']
           (dedupSources [] (get_tainted_ranges stEv objEv)) 0
           (get_tainted_ranges stEv objEv),
         dedupSources [] (get_tainted_ranges stEv objEv))) ∧
      (taint_ranges_as_evidence_info stEv objEv).2.Nodup :=
  taint_ranges_as_evidence_info_spec stEv objEv
    ['h', 'e', 'l', 'l', 'o', 'w', 'o', 'r', 'l', 'd'] rfl (by decide)

/-- Claim C5: concatenating the `value` fields of all evidence segments, in
order, reconstructs the value exactly. -/
theorem evidence_round_trip (st : TaintState) (p : PyObj) (cs : List Char)
    (hp : p.data = .text cs)
    (hch : chainFrom cs.length 0 (get_tainted_ranges st p) = true) :
    joinValues (taint_ranges_as_evidence_info st p).1 = cs := by
  by_cases hrs : get_tainted_ranges st p = []
  · unfold taint_ranges_as_evidence_info
    rw [hrs]
    simp [joinValues, hp, pyDataChars]
  · rw [evidence_eq_spec st p cs hp hrs]
    have h := joinValues_specSegments cs (dedupSources [] (get_tainted_ranges st p))
      (get_tainted_ranges st p) 0 hch
    simpa using h

/-- Witness for C5: the segments of `"helloworld"`'s evidence re-concatenate
to `"helloworld"`. -/
theorem evidence_round_trip_witness :
    joinValues (taint_ranges_as_evidence_info stEv objEv).1 =
      ['h', 'e', 'l', 'l', 'o', 'w', 'o', 'r', 'l', 'd'] :=
  evidence_round_trip stEv objEv ['h', 'e', 'l', 'l', 'o', 'w', 'o', 'r', 'l', 'd']
    rfl (by decide)

/-- Claim C10: a registered zero-length range is not elided by the evidence
path: the output still contains a tainted segment with an empty value slice
whose source index resolves to that range's source, and the de-duplicated
source list still contains that source. -/
theorem zero_length_range_kept (st : TaintState) (p : PyObj) (cs : List Char)
    (r : TaintRange) (hp : p.data = .text cs)
    (hr : r ∈ get_tainted_ranges st p) (hlen : r.length = 0) :
    (⟨[], some (listIndex (taint_ranges_as_evidence_info st p).2 r.source)⟩ : ValuePart) ∈
        (taint_ranges_as_evidence_info st p).1 ∧
      (taint_ranges_as_evidence_info st p).2[
          listIndex (taint_ranges_as_evidence_info st p).2 r.source]? =
        some r.source := by
  have hne : get_tainted_ranges st p ≠ [] := by
    intro h
    rw [h] at hr
    cases hr
  rw [evidence_eq_spec st p cs hp hne]
  have hmem := mem_specSegments cs
    (dedupSources [] (get_tainted_ranges st p)) 0 hr
  rw [hlen, Nat.add_zero, pySlice_self] at hmem
  exact ⟨hmem, get?_listIndex (mem_dedupSources_of_mem hr)⟩

/-- Witness for C10: the zero-length range `[1,1)↦src1` of `"xy"` yields an
empty tainted segment pointing at `src1`. -/
theorem zero_length_range_kept_witness :
    (⟨[], some (listIndex (taint_ranges_as_evidence_info stZ objZ).2 src1)⟩ : ValuePart) ∈
        (taint_ranges_as_evidence_info stZ objZ).1 ∧
      (taint_ranges_as_evidence_info stZ objZ).2[
          listIndex (taint_ranges_as_evidence_info stZ objZ).2 src1]? =
        some src1 :=
  zero_length_range_kept stZ objZ ['x', 'y'] ⟨1, 0, src1⟩ rfl (by decide) rfl

/-- Claim C6: if each operand's range sequence is sorted by start, disjoint
and contained in `[0, len(operand))`, the sequence `add_taint_pyobject`
registers for the concatenation result is sorted by start, disjoint and
contained in `[0, len(a) + len(b))`. -/
theorem add_taint_pyobject_preserves_invariant (st : TaintState) (res a b : PyObj)
    (ca cb cr : List Char)
    (hca : a.data = .text ca) (_hcb : b.data = .text cb) (hcr : res.data = .text cr)
    (hchA : chainFrom ca.length 0 (get_ranges st a) = true)
    (hchB : chainFrom cb.length 0 (get_ranges st b) = true)
    (ht : is_pyobject_tainted st a = true ∨ is_pyobject_tainted st b = true) :
    (add_taint_pyobject st res a b).map
        (fun p => chainFrom (ca.length + cb.length) 0 (get_ranges p.2 p.1)) =
      some true := by
  rw [add_ranges_spec st res a b ca cr hca hcr ht]
  simp only [Option.map_some', Option.some.injEq]
  rw [get_ranges_dictSet _ st.next_id _ ⟨st.next_id, res.data⟩ rfl]
  apply chainFrom_append (Nat.le_add_right _ _) (Nat.zero_le _) hchA
  have h := chainFrom_shift ca.length hchB
  simpa using h

/-- Witness for C6: the ranges registered for `"ab" + "c"` satisfy the
ordering invariant over length 3. -/
theorem add_taint_pyobject_preserves_invariant_witness :
    (add_taint_pyobject stAB objAB objA objB).map
        (fun p => chainFrom 3 0 (get_ranges p.2 p.1)) =
      some true :=
  add_taint_pyobject_preserves_invariant stAB objAB objA objB ['a', 'b'] ['c']
    ['a', 'b', 'c'] rfl rfl rfl (by decide) (by decide) (Or.inl (by decide))

end TaintTracking
